import Mathlib

/-!
Verification of the `strong_id` crate: the fixed-width base-32 codec, the
`Id` encode/decode implementations (`impl_strong_uint` in `lib.rs`), the
dynamic identifier (`DynamicStrongId` in `dynamic.rs`) and the generated
fixed-prefix identifiers (`_internal_impl_common` / `_internal_impl_from_str`
in `lib.rs`).

Strings are embedded as lists of byte values (`List Nat`), matching the
byte-level operations of the Rust code (`as_bytes`, `rsplit_once('_')` on
ASCII). Machine integers are embedded as `Nat` with explicit `< 2 ^ (w * 8)`
bounds, where `w` is the byte width of the backing unsigned integer type.

Naming note: the word used by the source for the namespace label of an
identifier cannot be used as a Lean identifier here, so Lean names shorten
it to `pfx` (e.g. `mapPfx` embeds the source function `map_prefix`,
`Error.pfxExpected` embeds `Error::PrefixExpected`).
-/

namespace StrongIdSpec

instance {ε α : Type} [DecidableEq ε] [DecidableEq α] : DecidableEq (Except ε α) :=
  fun x y =>
    match x, y with
    | .ok a, .ok b =>
      if h : a = b then .isTrue (by rw [h]) else .isFalse (by simp [h])
    | .error a, .error b =>
      if h : a = b then .isTrue (by rw [h]) else .isFalse (by simp [h])
    | .ok _, .error _ => .isFalse (by simp)
    | .error _, .ok _ => .isFalse (by simp)

/-- Modelled from the spec: the repository's `base32.rs` module is referenced
by `lib.rs` (`mod base32`) but its source is not available; the 32-character
lowercase Crockford-style alphabet (digits 0-9 and lowercase letters
excluding i, l, o, u), each character mapping to a 5-bit value by position.
Stored as ASCII byte values. -/
def alphabet : List Nat :=
  "0123456789abcdefghjkmnpqrstvwxyz".toList.map Char.toNat

/-- Position of byte `b` in a list, if present (first occurrence). -/
def indexIn : List Nat → Nat → Option Nat
  | [], _ => none
  | a :: rest, b => if b = a then some 0 else (indexIn rest b).map (· + 1)

/-- Modelled from the spec: inverse alphabet lookup of `base32.rs` (not in
the sources) — maps an input byte back to its 5-bit value, `none` for a byte
outside the alphabet. -/
def charToValue (b : Nat) : Option Nat := indexIn alphabet b

/-- Modelled from the spec: forward alphabet lookup of `base32.rs` (not in
the sources) — maps a 5-bit value to its alphabet byte. -/
def valueToChar (d : Nat) : Nat := alphabet.getD d 48

/-- Modelled from the spec: `encoded_len` of `base32.rs` (not in the
sources) — `ceil(w * 8 / 5)` output characters for a `w`-byte value. -/
def encodedLen (w : Nat) : Nat := (w * 8 + 4) / 5

/-- Modelled from the spec: the error type `Base32Error` of `base32.rs`
(not in the sources); `lib.rs` re-exports it and tests name both variants. -/
inductive Base32Error
  | invalidByte
  | invalidFirstByte
deriving DecidableEq, Repr

/-- Modelled from the spec: `base32::encode` of `base32.rs` (not in the
sources) — packs the byte buffer as a single big-endian unsigned integer
(here already a `Nat`) and emits it most-significant-digit-first as 5-bit
groups mapped through the alphabet, left-padded with the zero character to
exactly `n` output bytes. `n` is the output buffer length, `encoded_len`
at every call site. -/
def b32encode : Nat → Nat → List Nat
  | 0, _ => []
  | n + 1, v => b32encode n (v / 32) ++ [valueToChar (v % 32)]

/-- Modelled from the spec: the accumulation loop of `base32::decode`
(not in the sources) — maps each input byte back to its 5-bit value via
inverse alphabet lookup, accumulating into a big integer; a byte outside
the alphabet is `InvalidByte`. -/
def decodeDigits (acc : Nat) : List Nat → Except Base32Error Nat
  | [] => .ok acc
  | b :: rest =>
    match charToValue b with
    | none => .error .invalidByte
    | some d => decodeDigits (acc * 32 + d) rest

/-- Modelled from the spec: the first-character bound of `base32::decode`
(not in the sources). The first character carries
`encoded_len(w) * 5 - w * 8` overhang bits, so its 5-bit value must be
below `2 ^ (5 - overhang)` for the decoded magnitude to fit in `w` bytes. -/
def firstByteLimit (w : Nat) : Nat := 2 ^ (5 - (encodedLen w * 5 - w * 8))

/-- Modelled from the spec: `base32::decode` of `base32.rs` (not in the
sources) — checks the first character against `firstByteLimit` before
accumulating the remaining characters (rejecting an overlarge leading digit
early, as `InvalidFirstByte`), then accumulates all digits; the decoded
value is the big-endian content of the output buffer. Length checking is
the caller's job (`Id::decode` in `lib.rs`). -/
def b32decode (w : Nat) : List Nat → Except Base32Error Nat
  | [] => .ok 0
  | b :: rest =>
    match charToValue b with
    | none => .error .invalidByte
    | some d =>
      if firstByteLimit w ≤ d then .error .invalidFirstByte
      else decodeDigits d rest

/-- The error enum `Error` of `lib.rs`. `List Nat` stands for the `String`
payloads (byte lists), `Nat` for `usize` and for the byte carried by
`IncorrectPrefixCharacter` (`*b as char` in `map_prefix`). -/
inductive Error
  | base32 : Base32Error → Error
  | missingPfx : List Nat → Error
  | invalidPfx : List Nat → List Nat → Error
  | pfxExpected : Error
  | noPfxExpected : List Nat → Error
  | invalidLength : Nat → Nat → Error
  | pfxTooLong : Nat → Error
  | incorrectPfxCharacter : Nat → Error
deriving DecidableEq, Repr

/-- `Id::encode` from `impl_strong_uint` in `lib.rs`: encode the value's
big-endian bytes through `base32::encode` into a buffer of
`encoded_len::<T>()` bytes. `w` is `size_of::<T>()`. -/
def idEncode (w : Nat) (v : Nat) : List Nat := b32encode (encodedLen w) v

/-- `Id::decode` from `impl_strong_uint` in `lib.rs`: first check the input
length against `encoded_len::<T>()` (returning `Error::InvalidLength(expected,
found)` on mismatch), then run `base32::decode` and lift its error. -/
def idDecode (w : Nat) (s : List Nat) : Except Error Nat :=
  if s.length ≠ encodedLen w then
    .error (.invalidLength (encodedLen w) s.length)
  else
    match b32decode w s with
    | .error e => .error (.base32 e)
    | .ok v => .ok v

/-- Whether byte `b` passes the per-byte test of `map_prefix` in
`dynamic.rs`: the underscore byte is skipped when the `delimited` feature is
on, otherwise the byte must satisfy `u8::is_ascii_lowercase`. -/
def allowedPfxByte (delim : Bool) (b : Nat) : Bool :=
  (delim && b == 95) || (97 ≤ b && b ≤ 122)

/-- The scanning loop of `map_prefix` in `dynamic.rs`: first byte failing
`allowedPfxByte`, if any. -/
def findBadByte (delim : Bool) : List Nat → Option Nat
  | [] => none
  | b :: rest =>
    if allowedPfxByte delim b then findBadByte delim rest else some b

/-- `map_prefix` in `dynamic.rs` (Lean name shortened, see module comment):
reject length ≥ 64 with `PrefixTooLong`, then the first disallowed byte with
`IncorrectPrefixCharacter`, then emptiness with `PrefixExpected`; otherwise
return the text unchanged. `delim` is the `delimited` feature flag. -/
def mapPfx (delim : Bool) (p : List Nat) : Except Error (List Nat) :=
  if 64 ≤ p.length then .error (.pfxTooLong p.length)
  else
    match findBadByte delim p with
    | some b => .error (.incorrectPfxCharacter b)
    | none => if p = [] then .error .pfxExpected else .ok p

/-- `DynamicStrongId` in `dynamic.rs`: an optional validated namespace label
plus a suffix value (the `Cow` owned/borrowed distinction is invisible to
comparison and formatting and is not modelled). -/
structure DynId where
  pfx : Option (List Nat)
  suffix : Nat
deriving DecidableEq, Repr

/-- `DynamicStrongId::new` in `dynamic.rs`: validate the label through
`map_prefix` and store it alongside the value. -/
def dynNew (delim : Bool) (p : List Nat) (v : Nat) : Except Error DynId :=
  match mapPfx delim p with
  | .error e => .error e
  | .ok q => .ok ⟨some q, v⟩

/-- `DynamicStrongId::new_plain` in `dynamic.rs`. -/
def dynNewPlain (v : Nat) : DynId := ⟨none, v⟩

/-- `str::rsplit_once` specialised to one separator byte: split around the
last occurrence of `sep`, `none` when `sep` does not occur. -/
def rsplitOnce (sep : Nat) : List Nat → Option (List Nat × List Nat)
  | [] => none
  | b :: rest =>
    match rsplitOnce sep rest with
    | some (l, r) => some (b :: l, r)
    | none => if b = sep then some ([], rest) else none

/-- ASCII bytes removed by `str::trim` (the inputs at issue are ASCII). -/
def isWhitespaceByte (b : Nat) : Bool :=
  b == 32 || b == 9 || b == 10 || b == 11 || b == 12 || b == 13

/-- `FromStr for DynamicStrongId` in `dynamic.rs`: split on the last
underscore; a split with an all-whitespace left part is
`MissingPrefix(left)`; otherwise validate the left part as the label and
decode the right part; with no underscore, decode the whole input with no
label. `w` is the suffix type's byte width. -/
def dynParse (delim : Bool) (w : Nat) (s : List Nat) : Except Error DynId :=
  match rsplitOnce 95 s with
  | some (l, r) =>
    if l.all isWhitespaceByte then .error (.missingPfx l)
    else
      match mapPfx delim l with
      | .error e => .error e
      | .ok p =>
        match idDecode w r with
        | .error e => .error e
        | .ok v => .ok ⟨some p, v⟩
  | none =>
    match idDecode w s with
    | .error e => .error e
    | .ok v => .ok ⟨none, v⟩

/-- `Display for DynamicStrongId` in `dynamic.rs`: `label ++ "_" ++
encode(suffix)` when a label is present, else `encode(suffix)`. -/
def dynFormat (w : Nat) (id : DynId) : List Nat :=
  match id.pfx with
  | some p => p ++ 95 :: idEncode w id.suffix
  | none => idEncode w id.suffix

/-- `Display` for a generated fixed-label type (`_internal_impl_common` in
`lib.rs`): `pfxc` is the compile-time label (`None` when the declaration has
none), the stored state is just the suffix value. -/
def fixedFormat (pfxc : Option (List Nat)) (w : Nat) (v : Nat) : List Nat :=
  match pfxc with
  | some p => p ++ 95 :: idEncode w v
  | none => idEncode w v

/-- `FromStr` for a generated fixed-label type (`_internal_impl_from_str` in
`lib.rs`): split on the last underscore; with a configured label, no split
or an empty left part is `MissingPrefix(expected)`, a differing left part is
`InvalidPrefix(expected, found)`, else decode the right part; with no
configured label, any split is `NoPrefixExpected(found)`, else decode the
whole input. -/
def fixedParse (pfxc : Option (List Nat)) (w : Nat) (s : List Nat) :
    Except Error Nat :=
  match pfxc with
  | some p =>
    match rsplitOnce 95 s with
    | none => .error (.missingPfx p)
    | some (l, r) =>
      if l = [] then .error (.missingPfx p)
      else if l ≠ p then .error (.invalidPfx p l)
      else idDecode w r
  | none =>
    match rsplitOnce 95 s with
    | some (l, _) => .error (.noPfxExpected l)
    | none => idDecode w s

/-- Byte-wise lexicographic strict comparison of byte strings, as Rust
compares `str`/`[u8]` values. -/
def strLtBytes : List Nat → List Nat → Bool
  | [], [] => false
  | [], _ :: _ => true
  | _ :: _, [] => false
  | a :: as, b :: bs =>
    if a < b then true else if b < a then false else strLtBytes as bs

/-! ### Codec lemmas -/

theorem b32encode_length (n : Nat) : ∀ v, (b32encode n v).length = n := by
  induction n with
  | zero => intro v; rfl
  | succ n ih => intro v; simp [b32encode, ih]

theorem alphabet_length : alphabet.length = 32 := by decide

theorem charToValue_valueToChar :
    ∀ d, d < 32 → charToValue (valueToChar d) = some d := by decide

theorem valueToChar_strict_mono :
    ∀ a, a < 32 → ∀ b, b < 32 → a < b → valueToChar a < valueToChar b := by decide

theorem valueToChar_mem_alphabet (d : Nat) (hd : d < 32) :
    valueToChar d ∈ alphabet := by
  have h : d < alphabet.length := by rw [alphabet_length]; exact hd
  unfold valueToChar
  rw [List.getD_eq_getElem alphabet 48 h]
  exact List.getElem_mem h

theorem underscore_not_mem_b32encode (n v : Nat) : 95 ∉ b32encode n v := by
  induction n generalizing v with
  | zero => simp [b32encode]
  | succ n ih =>
    simp only [b32encode, List.mem_append, List.mem_singleton]
    rintro (h | h)
    · exact ih _ h
    · have hm : valueToChar (v % 32) ∈ alphabet :=
        valueToChar_mem_alphabet _ (Nat.mod_lt _ (by norm_num))
      rw [← h] at hm
      revert hm
      decide

theorem decodeDigits_append (ys xs : List Nat) (acc : Nat) :
    decodeDigits acc (xs ++ ys) =
      (decodeDigits acc xs).bind fun a => decodeDigits a ys := by
  induction xs generalizing acc with
  | nil => rfl
  | cons b xs ih =>
    cases h : charToValue b with
    | none => simp [decodeDigits, h, Except.bind]
    | some d => simp [decodeDigits, h, Except.bind, ih]

theorem decodeDigits_b32encode (n : Nat) :
    ∀ acc v, decodeDigits acc (b32encode n v) = .ok (acc * 32 ^ n + v % 32 ^ n) := by
  induction n with
  | zero => intro acc v; simp [b32encode, decodeDigits, Nat.mod_one]
  | succ n ih =>
    intro acc v
    have h32 : v % 32 < 32 := Nat.mod_lt _ (by norm_num)
    rw [show b32encode (n + 1) v = b32encode n (v / 32) ++ [valueToChar (v % 32)] from rfl,
      decodeDigits_append, ih]
    simp only [Except.bind, decodeDigits, charToValue_valueToChar _ h32]
    have hsplit : v % 32 ^ (n + 1) = v % 32 + 32 * (v / 32 % 32 ^ n) := by
      rw [pow_succ']
      exact Nat.mod_mul
    rw [hsplit, pow_succ]
    ring_nf

theorem b32encode_cons (n : Nat) :
    ∀ v, b32encode (n + 1) v = valueToChar (v / 32 ^ n % 32) :: b32encode n v := by
  induction n with
  | zero => intro v; simp [b32encode]
  | succ n ih =>
    intro v
    calc b32encode (n + 2) v
        = b32encode (n + 1) (v / 32) ++ [valueToChar (v % 32)] := rfl
      _ = (valueToChar (v / 32 / 32 ^ n % 32) :: b32encode n (v / 32)) ++
            [valueToChar (v % 32)] := by rw [ih]
      _ = valueToChar (v / 32 ^ (n + 1) % 32) :: b32encode (n + 1) v := by
          rw [Nat.div_div_eq_div_mul, ← pow_succ']
          rfl

theorem b32encode_mod (n : Nat) : ∀ v, b32encode n (v % 32 ^ n) = b32encode n v := by
  induction n with
  | zero => intro v; rfl
  | succ n ih =>
    intro v
    show b32encode n (v % 32 ^ (n + 1) / 32) ++ [valueToChar (v % 32 ^ (n + 1) % 32)] =
      b32encode n (v / 32) ++ [valueToChar (v % 32)]
    have h1 : v % 32 ^ (n + 1) / 32 = v / 32 % 32 ^ n := by
      rw [pow_succ']
      exact Nat.mod_mul_right_div_self v 32 (32 ^ n)
    have h2 : v % 32 ^ (n + 1) % 32 = v % 32 := by
      rw [pow_succ']
      exact Nat.mod_mul_right_mod v 32 (32 ^ n)
    rw [h1, h2, ih]

/-! ### Length arithmetic for `encoded_len` and the first-byte bound -/

theorem encodedLen_mul_five (w : Nat) :
    w * 8 ≤ encodedLen w * 5 ∧ encodedLen w * 5 ≤ w * 8 + 4 := by
  have h := Nat.div_add_mod (w * 8 + 4) 5
  have h2 : (w * 8 + 4) % 5 < 5 := Nat.mod_lt _ (by norm_num)
  unfold encodedLen
  omega

theorem encodedLen_pos (w : Nat) (hw : 1 ≤ w) : 1 ≤ encodedLen w := by
  have h := (encodedLen_mul_five w).1
  omega

theorem firstByteLimit_mul (w : Nat) (hw : 1 ≤ w) :
    firstByteLimit w * 32 ^ (encodedLen w - 1) = 2 ^ (w * 8) := by
  have h1 := (encodedLen_mul_five w).1
  have h2 := (encodedLen_mul_five w).2
  have h3 := encodedLen_pos w hw
  unfold firstByteLimit
  rw [show (32 : Nat) = 2 ^ 5 from by norm_num, ← pow_mul, ← pow_add]
  congr 1
  omega

theorem firstByteLimit_le (w : Nat) : firstByteLimit w ≤ 32 := by
  unfold firstByteLimit
  calc 2 ^ (5 - (encodedLen w * 5 - w * 8)) ≤ 2 ^ 5 :=
        Nat.pow_le_pow_right (by norm_num) (by omega)
    _ = 32 := by norm_num

theorem firstDigit_lt_limit (w v : Nat) (hw : 1 ≤ w) (hv : v < 2 ^ (w * 8)) :
    v / 32 ^ (encodedLen w - 1) < firstByteLimit w := by
  apply Nat.div_lt_of_lt_mul
  calc v < 2 ^ (w * 8) := hv
    _ = firstByteLimit w * 32 ^ (encodedLen w - 1) := (firstByteLimit_mul w hw).symm
    _ = 32 ^ (encodedLen w - 1) * firstByteLimit w := Nat.mul_comm _ _

/-! ### Round-trip of `Id::encode` / `Id::decode` -/

theorem idEncode_length (w v : Nat) : (idEncode w v).length = encodedLen w :=
  b32encode_length _ _

theorem idDecode_idEncode (w v : Nat) (hw : 1 ≤ w) (hv : v < 2 ^ (w * 8)) :
    idDecode w (idEncode w v) = .ok v := by
  have hL := encodedLen_pos w hw
  obtain ⟨m, hm⟩ : ∃ m, encodedLen w = m + 1 := ⟨encodedLen w - 1, by omega⟩
  have hm' : encodedLen w - 1 = m := by omega
  have hdiv : v / 32 ^ m < firstByteLimit w := by
    rw [← hm']; exact firstDigit_lt_limit w v hw hv
  have hdiv32 : v / 32 ^ m < 32 := lt_of_lt_of_le hdiv (firstByteLimit_le w)
  have hmodeq : v / 32 ^ m % 32 = v / 32 ^ m := Nat.mod_eq_of_lt hdiv32
  have henc : idEncode w v = valueToChar (v / 32 ^ m % 32) :: b32encode m v := by
    unfold idEncode
    rw [hm, b32encode_cons]
  rw [hmodeq] at henc
  have hlen : (idEncode w v).length = encodedLen w := idEncode_length w v
  have hb : b32decode w (valueToChar (v / 32 ^ m) :: b32encode m v) = .ok v := by
    have hc : charToValue (valueToChar (v / 32 ^ m)) = some (v / 32 ^ m) :=
      charToValue_valueToChar _ hdiv32
    simp only [b32decode, hc]
    rw [if_neg (by omega), decodeDigits_b32encode]
    congr 1
    rw [Nat.mul_comm]
    exact Nat.div_add_mod v (32 ^ m)
  unfold idDecode
  rw [if_neg (by rw [hlen]; exact fun h => h rfl)]
  rw [henc, hb]

/-! ### Lexicographic monotonicity of the encoder -/

theorem strLt_cons_lt {a b : Nat} (as bs : List Nat) (h : a < b) :
    strLtBytes (a :: as) (b :: bs) = true := by
  simp [strLtBytes, h]

theorem strLt_cons_eq (a : Nat) (as bs : List Nat) :
    strLtBytes (a :: as) (a :: bs) = strLtBytes as bs := by
  simp [strLtBytes]

theorem strLt_b32encode (n : Nat) :
    ∀ v1 v2, v1 < v2 → v2 < 32 ^ n →
      strLtBytes (b32encode n v1) (b32encode n v2) = true := by
  induction n with
  | zero =>
    intro v1 v2 h12 h2
    simp only [pow_zero] at h2
    omega
  | succ n ih =>
    intro v1 v2 h12 h2
    rw [b32encode_cons, b32encode_cons]
    have h2' : v2 < 32 ^ n * 32 := by rw [← pow_succ]; exact h2
    have hq2 : v2 / 32 ^ n < 32 := Nat.div_lt_of_lt_mul h2'
    have hqle : v1 / 32 ^ n ≤ v2 / 32 ^ n := Nat.div_le_div_right (Nat.le_of_lt h12)
    have hq1 : v1 / 32 ^ n < 32 := lt_of_le_of_lt hqle hq2
    rcases Nat.lt_or_ge (v1 / 32 ^ n) (v2 / 32 ^ n) with hlt | hge
    · apply strLt_cons_lt
      rw [Nat.mod_eq_of_lt hq1, Nat.mod_eq_of_lt hq2]
      exact valueToChar_strict_mono _ hq1 _ hq2 hlt
    · have heq : v1 / 32 ^ n = v2 / 32 ^ n := le_antisymm hqle hge
      rw [heq, strLt_cons_eq, ← b32encode_mod n v1, ← b32encode_mod n v2]
      apply ih
      · have e1 := Nat.div_add_mod v1 (32 ^ n)
        have e2 := Nat.div_add_mod v2 (32 ^ n)
        rw [heq] at e1
        omega
      · exact Nat.mod_lt _ (Nat.pos_pow_of_pos n (by norm_num))

theorem pow2_le_pow32 (w : Nat) : 2 ^ (w * 8) ≤ 32 ^ encodedLen w := by
  have h1 := (encodedLen_mul_five w).1
  rw [show (32 : Nat) = 2 ^ 5 from by norm_num, ← pow_mul]
  exact Nat.pow_le_pow_right (by norm_num) (by omega)

/-! ### Prefix validation (`map_prefix`) -/

theorem findBadByte_none (delim : Bool) (p : List Nat) :
    findBadByte delim p = none ↔ ∀ b ∈ p, allowedPfxByte delim b = true := by
  induction p with
  | nil => simp [findBadByte]
  | cons b rest ih =>
    cases h : allowedPfxByte delim b with
    | false => simp [findBadByte, h]
    | true => simp [findBadByte, h, ih]

theorem findBadByte_first (delim : Bool) (good : List Nat) (b : Nat) (rest : List Nat)
    (hgood : ∀ c ∈ good, allowedPfxByte delim c = true)
    (hb : allowedPfxByte delim b = false) :
    findBadByte delim (good ++ b :: rest) = some b := by
  induction good with
  | nil => simp [findBadByte, hb]
  | cons c good ih =>
    have hc : allowedPfxByte delim c = true := hgood c (by simp)
    simp only [List.cons_append, findBadByte, hc, if_true]
    exact ih fun x hx => hgood x (by simp [hx])

theorem mapPfx_ok_iff (delim : Bool) (p q : List Nat) :
    mapPfx delim p = .ok q ↔
      q = p ∧ p ≠ [] ∧ p.length < 64 ∧ ∀ b ∈ p, allowedPfxByte delim b = true := by
  unfold mapPfx
  rcases Nat.lt_or_ge p.length 64 with hlen | hlen
  · rw [if_neg (by omega)]
    cases hfb : findBadByte delim p with
    | some b =>
      simp only [reduceCtorEq, false_iff]
      rintro ⟨rfl, hne, hl, hall⟩
      rw [(findBadByte_none delim _).mpr hall] at hfb
      cases hfb
    | none =>
      by_cases hp : p = []
      · subst hp
        simp
      · rw [if_neg hp]
        have hall := (findBadByte_none delim p).mp hfb
        constructor
        · intro h
          cases h
          exact ⟨rfl, hp, hlen, hall⟩
        · rintro ⟨rfl, _, _, _⟩
          rfl
  · rw [if_pos hlen]
    simp only [reduceCtorEq, false_iff]
    rintro ⟨_, _, hl, _⟩
    omega

theorem mapPfx_bad_byte (delim : Bool) (good : List Nat) (b : Nat) (rest : List Nat)
    (hlen : (good ++ b :: rest).length < 64)
    (hgood : ∀ c ∈ good, allowedPfxByte delim c = true)
    (hb : allowedPfxByte delim b = false) :
    mapPfx delim (good ++ b :: rest) = .error (.incorrectPfxCharacter b) := by
  unfold mapPfx
  rw [if_neg (by omega), findBadByte_first delim good b rest hgood hb]

/-! ### Length errors and splitting -/

theorem idDecode_wrong_length (w : Nat) (s : List Nat) (h : s.length ≠ encodedLen w) :
    idDecode w s = .error (.invalidLength (encodedLen w) s.length) := by
  unfold idDecode
  rw [if_pos h]

theorem rsplitOnce_none_iff (sep : Nat) (s : List Nat) :
    rsplitOnce sep s = none ↔ sep ∉ s := by
  induction s with
  | nil => simp [rsplitOnce]
  | cons b rest ih =>
    simp only [rsplitOnce]
    cases h : rsplitOnce sep rest with
    | some lr =>
      have hmem : sep ∈ rest := by
        by_contra hc
        rw [ih.mpr hc] at h
        cases h
      simp [hmem]
    | none =>
      have hnotin : sep ∉ rest := ih.mp h
      by_cases hb : b = sep
      · subst hb
        simp
      · rw [if_neg hb]
        constructor
        · intro _
          simp only [List.mem_cons]
          rintro (hc | hc)
          · exact hb hc.symm
          · exact hnotin hc
        · intro _
          rfl

theorem rsplitOnce_append (sep : Nat) (l r : List Nat) (hr : sep ∉ r) :
    rsplitOnce sep (l ++ sep :: r) = some (l, r) := by
  induction l with
  | nil => simp [rsplitOnce, (rsplitOnce_none_iff sep r).mpr hr]
  | cons b l ih => simp [rsplitOnce, ih]

theorem underscore_not_mem_idEncode (w v : Nat) : 95 ∉ idEncode w v :=
  underscore_not_mem_b32encode _ _

/-! ### Prefix bytes are not whitespace -/

theorem allowedPfxByte_cases (delim : Bool) (b : Nat)
    (h : allowedPfxByte delim b = true) : b = 95 ∨ (97 ≤ b ∧ b ≤ 122) := by
  unfold allowedPfxByte at h
  simp only [Bool.or_eq_true, Bool.and_eq_true, beq_iff_eq, decide_eq_true_eq] at h
  tauto

theorem isWhitespaceByte_eq_false (b : Nat)
    (h : b = 95 ∨ (97 ≤ b ∧ b ≤ 122)) : isWhitespaceByte b = false := by
  simp only [isWhitespaceByte, Bool.or_eq_false_iff, beq_eq_false_iff_ne, ne_eq]
  omega

theorem pfx_not_all_ws (delim : Bool) (p : List Nat) (hne : p ≠ [])
    (hall : ∀ b ∈ p, allowedPfxByte delim b = true) :
    p.all isWhitespaceByte = false := by
  cases p with
  | nil => exact absurd rfl hne
  | cons b rest =>
    have hb := isWhitespaceByte_eq_false b (allowedPfxByte_cases delim b (hall b (by simp)))
    simp [List.all_cons, hb]

/-! ### Format / parse round-trips -/

/-- ASCII bytes of a string literal, for readable concrete inputs. -/
def strBytes (s : String) : List Nat := s.toList.map Char.toNat

theorem dynNew_ok (delim : Bool) (p : List Nat) (v : Nat) (id : DynId)
    (h : dynNew delim p v = .ok id) :
    id = ⟨some p, v⟩ ∧ mapPfx delim p = .ok p := by
  unfold dynNew at h
  cases hm : mapPfx delim p with
  | error e => rw [hm] at h; cases h
  | ok q =>
    rw [hm] at h
    obtain ⟨hq, -, -, -⟩ := (mapPfx_ok_iff delim p q).mp hm
    subst hq
    cases h
    exact ⟨rfl, rfl⟩

theorem dynParse_format_with_pfx (delim : Bool) (w : Nat) (p : List Nat) (v : Nat)
    (hw : 1 ≤ w) (hv : v < 2 ^ (w * 8)) (hp : mapPfx delim p = .ok p) :
    dynParse delim w (dynFormat w ⟨some p, v⟩) = .ok ⟨some p, v⟩ := by
  obtain ⟨-, hne, -, hall⟩ := (mapPfx_ok_iff delim p p).mp hp
  show dynParse delim w (p ++ 95 :: idEncode w v) = .ok ⟨some p, v⟩
  unfold dynParse
  rw [rsplitOnce_append 95 p (idEncode w v) (underscore_not_mem_idEncode w v)]
  simp only [pfx_not_all_ws delim p hne hall, Bool.false_eq_true, if_false,
    hp, idDecode_idEncode w v hw hv]

theorem dynParse_format_plain (delim : Bool) (w v : Nat)
    (hw : 1 ≤ w) (hv : v < 2 ^ (w * 8)) :
    dynParse delim w (dynFormat w (dynNewPlain v)) = .ok (dynNewPlain v) := by
  show dynParse delim w (idEncode w v) = .ok ⟨none, v⟩
  unfold dynParse
  rw [(rsplitOnce_none_iff 95 _).mpr (underscore_not_mem_idEncode w v)]
  simp only [idDecode_idEncode w v hw hv]

theorem fixedParse_format_with_pfx (w : Nat) (p : List Nat) (v : Nat)
    (hw : 1 ≤ w) (hv : v < 2 ^ (w * 8)) (hne : p ≠ []) :
    fixedParse (some p) w (fixedFormat (some p) w v) = .ok v := by
  show fixedParse (some p) w (p ++ 95 :: idEncode w v) = .ok v
  unfold fixedParse
  rw [rsplitOnce_append 95 p (idEncode w v) (underscore_not_mem_idEncode w v)]
  simp only [if_neg hne]
  rw [if_neg (fun h : ¬ p = p => h rfl)]
  exact idDecode_idEncode w v hw hv

theorem fixedParse_format_plain (w v : Nat) (hw : 1 ≤ w) (hv : v < 2 ^ (w * 8)) :
    fixedParse none w (fixedFormat none w v) = .ok v := by
  show fixedParse none w (idEncode w v) = .ok v
  unfold fixedParse
  rw [(rsplitOnce_none_iff 95 _).mpr (underscore_not_mem_idEncode w v)]
  exact idDecode_idEncode w v hw hv

theorem dynParse_eq_split (delim : Bool) (w : Nat) (s l r : List Nat)
    (hsp : rsplitOnce 95 s = some (l, r)) :
    dynParse delim w s =
      if l.all isWhitespaceByte then .error (.missingPfx l)
      else
        match mapPfx delim l with
        | .error e => .error e
        | .ok p =>
          match idDecode w r with
          | .error e => .error e
          | .ok v => .ok ⟨some p, v⟩ := by
  unfold dynParse
  rw [hsp]

/-! ## Claim theorems -/

/-- C1: for every supported width (`w` bytes with `1 ≤ w`; u8/u16/u32/u64/
u128/usize/Uuid are `w` = 1/2/4/8/16/8/16) and every value `v` of that width
(`v < 2 ^ (w * 8)`), decoding the string produced by encoding `v` returns
`Ok(v)`: `Id::decode(Id::encode(v)) == Ok(v)`. -/
theorem c1_decode_encode_roundtrip (w v : Nat) (hw : 1 ≤ w)
    (hv : v < 2 ^ (w * 8)) : idDecode w (idEncode w v) = .ok v :=
  idDecode_idEncode w v hw hv

/-- Witness for C1 at `w = 2` (u16), `v = 301`. -/
theorem c1_decode_encode_roundtrip_witness :
    idDecode 2 (idEncode 2 301) = .ok 301 :=
  c1_decode_encode_roundtrip 2 301 (by decide) (by decide)

/-- C2: parsing the string produced by formatting a constructible identifier
yields an equal identifier, for: a `DynamicStrongId` built by `new` (any
prefix text accepted by `map_prefix`, including underscores in delimited
mode), a `DynamicStrongId` built by `new_plain`, a generated fixed-prefix
type (any non-empty compile-time prefix), and a generated no-prefix type. -/
theorem c2_format_parse_idempotent :
    (∀ delim : Bool, ∀ w : Nat, ∀ p : List Nat, ∀ v : Nat, ∀ id : DynId,
      1 ≤ w → v < 2 ^ (w * 8) → dynNew delim p v = .ok id →
      dynParse delim w (dynFormat w id) = .ok id) ∧
    (∀ delim : Bool, ∀ w v : Nat, 1 ≤ w → v < 2 ^ (w * 8) →
      dynParse delim w (dynFormat w (dynNewPlain v)) = .ok (dynNewPlain v)) ∧
    (∀ w : Nat, ∀ p : List Nat, ∀ v : Nat, 1 ≤ w → v < 2 ^ (w * 8) → p ≠ [] →
      fixedParse (some p) w (fixedFormat (some p) w v) = .ok v) ∧
    (∀ w v : Nat, 1 ≤ w → v < 2 ^ (w * 8) →
      fixedParse none w (fixedFormat none w v) = .ok v) := by
  refine ⟨?_, ?_, ?_, ?_⟩
  · intro delim w p v id hw hv h
    obtain ⟨rfl, hp⟩ := dynNew_ok delim p v id h
    exact dynParse_format_with_pfx delim w p v hw hv hp
  · intro delim w v hw hv
    exact dynParse_format_plain delim w v hw hv
  · intro w p v hw hv hne
    exact fixedParse_format_with_pfx w p v hw hv hne
  · intro w v hw hv
    exact fixedParse_format_plain w v hw hv

/-- Witness for C2: a delimited-mode prefix with an internal underscore at
`w = 2`, `v = 301`; a plain dynamic identifier; a fixed-prefix type and a
no-prefix type. -/
theorem c2_format_parse_idempotent_witness :
    dynParse true 2 (dynFormat 2 ⟨some (strBytes "multi_part"), 301⟩) =
      .ok ⟨some (strBytes "multi_part"), 301⟩ ∧
    dynParse false 2 (dynFormat 2 (dynNewPlain 301)) = .ok (dynNewPlain 301) ∧
    fixedParse (some (strBytes "user")) 2
      (fixedFormat (some (strBytes "user")) 2 3203) = .ok 3203 ∧
    fixedParse none 2 (fixedFormat none 2 3203) = .ok 3203 := by
  refine ⟨?_, ?_, ?_, ?_⟩
  · exact c2_format_parse_idempotent.1 true 2 (strBytes "multi_part") 301
      ⟨some (strBytes "multi_part"), 301⟩ (by decide) (by decide) (by decide)
  · exact c2_format_parse_idempotent.2.1 false 2 301 (by decide) (by decide)
  · exact c2_format_parse_idempotent.2.2.1 2 (strBytes "user") 3203
      (by decide) (by decide) (by decide)
  · exact c2_format_parse_idempotent.2.2.2 2 3203 (by decide) (by decide)

/-- C3: the encoder is strictly monotone from numeric order into byte-wise
lexicographic string order: for `v1 < v2` of the same width, `encode(v1)` is
strictly below `encode(v2)`. -/
theorem c3_encode_strictly_monotone (w v1 v2 : Nat)
    (h12 : v1 < v2) (h2 : v2 < 2 ^ (w * 8)) :
    strLtBytes (idEncode w v1) (idEncode w v2) = true := by
  unfold idEncode
  exact strLt_b32encode (encodedLen w) v1 v2 h12 (lt_of_lt_of_le h2 (pow2_le_pow32 w))

/-- Witness for C3 at `w = 2`, `300 < 301`. -/
theorem c3_encode_strictly_monotone_witness :
    strLtBytes (idEncode 2 300) (idEncode 2 301) = true :=
  c3_encode_strictly_monotone 2 300 301 (by decide) (by decide)

/-- C4: every encoded string of a `w`-byte value has exactly
`encoded_len(w) = ceil(w * 8 / 5)` characters, independent of the value
(leading zero characters preserved): 2 for 1 byte, 4 for 2 bytes, 7 for
4 bytes, 13 for 8 bytes, 26 for 16 bytes. -/
theorem c4_encode_fixed_length :
    (∀ w v : Nat, (idEncode w v).length = encodedLen w) ∧
    (∀ w : Nat, encodedLen w = (w * 8 + 4) / 5) ∧
    encodedLen 1 = 2 ∧ encodedLen 2 = 4 ∧ encodedLen 4 = 7 ∧
    encodedLen 8 = 13 ∧ encodedLen 16 = 26 :=
  ⟨fun w v => idEncode_length w v, fun _ => rfl, rfl, rfl, rfl, rfl, rfl⟩

/-- C5: a decode input of the correct length whose leading character is in
the alphabet but carries a 5-bit value at or above the first-character bound
(so the decoded magnitude would exceed `w` bytes) yields
`Error::Base32Error(Base32Error::InvalidFirstByte)` — never a silently
truncated value. -/
theorem c5_overflow_rejected (w b d : Nat) (rest : List Nat)
    (hlen : (b :: rest).length = encodedLen w)
    (hd : charToValue b = some d) (hover : firstByteLimit w ≤ d) :
    idDecode w (b :: rest) = .error (.base32 .invalidFirstByte) := by
  have hb : b32decode w (b :: rest) = .error .invalidFirstByte := by
    simp only [b32decode, hd]
    rw [if_pos hover]
  unfold idDecode
  rw [if_neg (by rw [hlen]; exact fun h => h rfl), hb]

/-- Witness for C5: `"zzzz"` and `"z000"` decoded at `w = 2` (u16). -/
theorem c5_overflow_rejected_witness :
    idDecode 2 [122, 122, 122, 122] = .error (.base32 .invalidFirstByte) ∧
    idDecode 2 [122, 48, 48, 48] = .error (.base32 .invalidFirstByte) :=
  ⟨c5_overflow_rejected 2 122 31 [122, 122, 122] (by decide) (by decide) (by decide),
   c5_overflow_rejected 2 122 31 [48, 48, 48] (by decide) (by decide) (by decide)⟩

/-- C6: for every input whose length differs from `encoded_len(w)`,
`Id::decode` returns `Error::InvalidLength(expected, found)` with
`expected = encoded_len(w)` and `found` the input length, for any input
content whatsoever (the characters are never examined). -/
theorem c6_invalid_length (w : Nat) (s : List Nat)
    (h : s.length ≠ encodedLen w) :
    idDecode w s = .error (.invalidLength (encodedLen w) s.length) :=
  idDecode_wrong_length w s h

/-- Witness for C6: a length-10 input for the 16-bit width yields
`InvalidLength(4, 10)`. -/
theorem c6_invalid_length_witness :
    idDecode 2 [48, 48, 48, 48, 48, 48, 48, 48, 48, 48] =
      .error (.invalidLength 4 10) :=
  c6_invalid_length 2 [48, 48, 48, 48, 48, 48, 48, 48, 48, 48] (by decide)

/-- C7 counterexample: parsing `"prefix_000009d"` as a dynamic identifier
with a 16-bit suffix does not succeed — the 7-character body fails the
16-bit length check (`encoded_len = 4`) with `InvalidLength(4, 7)`. -/
theorem c7_counterexample :
    dynParse false 2 (strBytes "prefix_000009d") =
      .error (.invalidLength 4 7) := by decide

/-- C7 amended: parsing `"prefix_000009d"` as a dynamic identifier with a
32-bit suffix succeeds with prefix `Some("prefix")` and suffix 301 and
formats back to the identical string; parsing `"009d"` with a 16-bit suffix
yields prefix `None` and suffix 301. -/
theorem c7_amended_grammar :
    dynParse false 4 (strBytes "prefix_000009d") =
      .ok ⟨some (strBytes "prefix"), 301⟩ ∧
    dynFormat 4 ⟨some (strBytes "prefix"), 301⟩ = strBytes "prefix_000009d" ∧
    dynParse false 2 (strBytes "009d") = .ok ⟨none, 301⟩ := by
  exact ⟨by decide, by decide, by decide⟩

/-- C8 counterexample: on a 64-bit platform `usize` has width 8 bytes, and
the encoded body of a platform-width value does not have 26 characters. -/
theorem c8_counterexample : ¬ (idEncode 8 0).length = 26 := by decide

/-- C8 amended: the base32 body of a platform-width (8-byte on a 64-bit
platform) identifier has exactly 13 characters: every encoded value has
length 13 and decode rejects any other length with `InvalidLength(13, _)`.
(The in-repo tests `valid_usize`/`invalid_usize` pin exactly these lengths.) -/
theorem c8_amended_usize_len (v : Nat) (s : List Nat) (h : s.length ≠ 13) :
    (idEncode 8 v).length = 13 ∧
      idDecode 8 s = .error (.invalidLength 13 s.length) :=
  ⟨idEncode_length 8 v, idDecode_wrong_length 8 s h⟩

/-- Witness for C8 amended, at `v = 0` and a length-1 input. -/
theorem c8_amended_usize_len_witness :
    (idEncode 8 0).length = 13 ∧
      idDecode 8 [48] = .error (.invalidLength 13 1) :=
  c8_amended_usize_len 0 [48] (by decide)

/-- C9: `map_prefix` fails with `PrefixTooLong(len)` for every input of
length ≥ 64; otherwise fails with `IncorrectPrefixCharacter(c)` at the
first byte not allowed (lowercase ASCII letters; additionally the
underscore when the delimited feature is on); otherwise fails with
`PrefixExpected` on empty input; otherwise returns the text unchanged. -/
theorem c9_map_pfx_spec (delim : Bool) (p : List Nat) :
    (64 ≤ p.length → mapPfx delim p = .error (.pfxTooLong p.length)) ∧
    (∀ good b rest, p = good ++ b :: rest → p.length < 64 →
      (∀ c ∈ good, allowedPfxByte delim c = true) →
      allowedPfxByte delim b = false →
      mapPfx delim p = .error (.incorrectPfxCharacter b)) ∧
    (p = [] → mapPfx delim p = .error .pfxExpected) ∧
    (p ≠ [] → p.length < 64 → (∀ b ∈ p, allowedPfxByte delim b = true) →
      mapPfx delim p = .ok p) := by
  refine ⟨?_, ?_, ?_, ?_⟩
  · intro h
    unfold mapPfx
    rw [if_pos h]
  · rintro good b rest rfl hlen hgood hb
    exact mapPfx_bad_byte delim good b rest hlen hgood hb
  · rintro rfl
    rfl
  · intro hne hlen hall
    exact (mapPfx_ok_iff delim p p).mpr ⟨rfl, hne, hlen, hall⟩

/-- Witness for C9: a 64-byte input; `"a1b"` failing at the digit; the empty
input; and `"ab"` accepted unchanged. -/
theorem c9_map_pfx_spec_witness :
    mapPfx false (List.replicate 64 97) = .error (.pfxTooLong 64) ∧
    mapPfx false [97, 49, 98] = .error (.incorrectPfxCharacter 49) ∧
    mapPfx false [] = .error .pfxExpected ∧
    mapPfx false [97, 98] = .ok [97, 98] := by
  refine ⟨?_, ?_, ?_, ?_⟩
  · exact (c9_map_pfx_spec false (List.replicate 64 97)).1 (by decide)
  · exact (c9_map_pfx_spec false [97, 49, 98]).2.1 [97] 49 [98] rfl
      (by decide) (by decide) (by decide)
  · exact (c9_map_pfx_spec false []).2.2.1 rfl
  · exact (c9_map_pfx_spec false [97, 98]).2.2.2 (by decide) (by decide) (by decide)

/-- C10: the dynamic constructor never normalizes an empty prefix to "no
prefix" — `new("", v)` is `Err(PrefixExpected)` for every value, every
successful `new` stores a present prefix, and a parsed identifier has no
prefix only when its input contained no underscore (`new_plain` being the
remaining way to get prefix `None`). -/
theorem c10_empty_pfx_never_normalized :
    (∀ delim : Bool, ∀ v : Nat, dynNew delim [] v = .error .pfxExpected) ∧
    (∀ delim : Bool, ∀ p : List Nat, ∀ v : Nat, ∀ id : DynId,
      dynNew delim p v = .ok id → id.pfx ≠ none) ∧
    (∀ v : Nat, (dynNewPlain v).pfx = none) ∧
    (∀ delim : Bool, ∀ w : Nat, ∀ s : List Nat, ∀ id : DynId,
      dynParse delim w s = .ok id → id.pfx = none → 95 ∉ s) := by
  refine ⟨?_, ?_, ?_, ?_⟩
  · intro delim v
    rfl
  · intro delim p v id h
    obtain ⟨rfl, -⟩ := dynNew_ok delim p v id h
    simp
  · intro v
    rfl
  · intro delim w s id h hnone
    cases hsp : rsplitOnce 95 s with
    | some lr =>
      obtain ⟨l, r⟩ := lr
      rw [dynParse_eq_split delim w s l r hsp] at h
      cases hws : l.all isWhitespaceByte with
      | true => rw [if_pos hws] at h; cases h
      | false =>
        rw [if_neg (by simp [hws])] at h
        cases hm : mapPfx delim l with
        | error e => rw [hm] at h; cases h
        | ok q =>
          rw [hm] at h
          cases hd : idDecode w r with
          | error e => rw [hd] at h; cases h
          | ok v' =>
            rw [hd] at h
            cases h
            cases hnone
    | none =>
      exact (rsplitOnce_none_iff 95 s).mp hsp

/-- Witness for C10: empty-prefix construction fails, a successful `new`
has a prefix, `new_plain` has none, and a parse producing no prefix had no
underscore in its input. -/
theorem c10_empty_pfx_never_normalized_witness :
    dynNew false [] 7 = .error .pfxExpected ∧
    ({ pfx := some [97], suffix := 5 } : DynId).pfx ≠ none ∧
    (dynNewPlain 3).pfx = none ∧
    95 ∉ ([48, 48] : List Nat) := by
  refine ⟨?_, ?_, ?_, ?_⟩
  · exact c10_empty_pfx_never_normalized.1 false 7
  · exact c10_empty_pfx_never_normalized.2.1 false [97] 5 _ (by decide)
  · exact c10_empty_pfx_never_normalized.2.2.1 3
  · exact c10_empty_pfx_never_normalized.2.2.2 false 1 [48, 48] ⟨none, 0⟩
      (by decide) rfl

end StrongIdSpec
